import Mathlib

/-
Verification of the PASL account-state ledger core against its
natural-language specification.

The repository ships the safebox test-suite (src/safebox/safebox_test.go)
and the CLI front-end (src/main.go and the two alternative entry points in
src/unnamed), but not the safebox implementation itself.  Following the
specification (spec.md §3–§4, §7, §8), the safebox data model and its
operations are modelled here as executable Lean definitions; every such
definition carries a doc comment starting `Modelled from the spec:` naming
what it stands for.  The CLI exit-code logic is embedded directly from
src/main.go.
-/

namespace PASL

/-- Modelled from the spec: §3 "Account" record of the missing safebox
implementation.  The `u32`/`u64` machine fields are modelled as `Nat`
(the specified scenarios never overflow them); the elliptic-curve public
key is an opaque identifier, as §1 treats EC primitives as opaque. -/
structure Account where
  number : Nat
  publicKey : Nat
  balance : Nat
  updatedBlock : Nat
  nOperations : Nat
  deriving DecidableEq

/-- Modelled from the spec: `AccountsPerBlock = 5` (§3, glossary). -/
def AccountsPerBlock : Nat := 5

/-- Modelled from the spec: `MaturationHeight`, the maturation delay in
blocks, "e.g. 100" (§3 invariant 4, §8 scenario S2). -/
def MaturationHeight : Nat := 100

/-- Modelled from the spec: the bound *W* on `last_timestamps`
("W covers the retarget window, e.g. 100", §3). -/
def timestampsWindow : Nat := 100

/-- Modelled from the spec: the reward schedule of the missing
`getReward` (§4.2 step 1 and §8 scenario S1): "starts at `500_000` and
halves every `420_480` blocks; floor at `10_000`". -/
def getReward (height : Nat) : Nat :=
  if 500000 / 2 ^ (height / 420480) < 10000 then 10000
  else 500000 / 2 ^ (height / 420480)

/-- Modelled from the spec: the mutable per-state part of the safebox
(§3 "Safebox state"): dense account array, height, the bounded
most-recent-first timestamp list, and the cumulative difficulty. -/
structure SafeboxState where
  accounts : List Account
  height : Nat
  lastTimestamps : List Nat
  cumulativeDifficulty : Int
  deriving DecidableEq

/-- Modelled from the spec: the safebox with its copy-on-write staging
layer (§3 `pending`, §9 "Copy-on-write staging") and the dirty pack-index
set (§3 `dirty`).  The effective (readable) state is `pending` when a
block is staged, the committed state otherwise. -/
structure Safebox where
  committed : SafeboxState
  pending : Option SafeboxState
  dirty : Finset Nat
  deriving DecidableEq

/-- Modelled from the spec: reads consult the overlay first then fall
through to the committed state (§9). -/
def Safebox.effective (sb : Safebox) : SafeboxState :=
  sb.pending.getD sb.committed

/-- Modelled from the spec: genesis construction `NewSafebox` (§3
"Lifecycle": "constructed either empty (genesis) or by replaying"). -/
def NewSafebox : Safebox :=
  { committed := { accounts := [], height := 0, lastTimestamps := [], cumulativeDifficulty := 0 }
    pending := none
    dirty := ∅ }

/-- Modelled from the spec: read accessor `GetHeight` (§4.2). -/
def GetHeight (sb : Safebox) : Nat :=
  sb.effective.height

/-- Modelled from the spec: read accessor `GetAccount` (§4.1, §4.2);
out-of-range numbers fail with `OutOfRange`, modelled as `none`. -/
def GetAccount (sb : Safebox) (number : Nat) : Option Account :=
  sb.effective.accounts[number]?

/-- Modelled from the spec: read accessor `GetLastTimestamps(n)` (§4.2):
the first `n` entries of the most-recent-first timestamp list. -/
def GetLastTimestamps (sb : Safebox) (n : Nat) : List Nat :=
  sb.effective.lastTimestamps.take n

/-- Modelled from the spec: `GetUpdatedPacks` (§4.1): the set of pack
indices modified since the last `Merge`. -/
def GetUpdatedPacks (sb : Safebox) : Finset Nat :=
  sb.dirty

/-- Modelled from the spec: §4.1 pack serialization feeding the
fingerprint: for each account `(number, n_operations, balance,
updated_block, public_key)`; the hash itself is opaque, so the
fingerprint is modelled as the serialized content. -/
def serializeAccount (a : Account) : List Nat :=
  [a.number, a.nOperations, a.balance, a.updatedBlock, a.publicKey]

/-- Modelled from the spec: `GetFingerprint` (§4.1 `Hash()`): digest over
the ordered pack contents, modelled as the ordered serialization itself
(the hash function is opaque and injective for the purposes of §8). -/
def GetFingerprint (sb : Safebox) : List Nat :=
  (sb.effective.accounts.map serializeAccount).flatten

/-- Modelled from the spec: `Merge()` promotes pending to committed and
clears dirty (§3 "Lifecycle", §4.2). -/
def Merge (sb : Safebox) : Safebox :=
  { committed := sb.effective, pending := none, dirty := ∅ }

/-- Modelled from the spec: `Rollback()` discards pending and dirty
without changing committed state (§4.2). -/
def Rollback (sb : Safebox) : Safebox :=
  { committed := sb.committed, pending := none, dirty := ∅ }

/-- Modelled from the spec: §7 error kinds raised by the safebox:
`InvalidSignature` (EC verification failed) and `InvalidOperation`
(semantic: balance, maturation, op_id, self-transfer, unknown account). -/
inductive ErrKind where
  | invalidSignature
  | invalidOperation
  deriving DecidableEq

/-- Modelled from the spec: §3 "Operation variants".  The signature is
modelled opaquely as the public key under which it verifies (§1 treats
`Sign`/`Verify` as opaque), so "validate signature against the source
account's current public key" becomes an equality test. -/
inductive Operation where
  | transfer (source opId destination amount fee : Nat) (payload : List Nat) (signature : Nat)
  | changeKey (source opId fee : Nat) (payload : List Nat) (newPublicKey : Nat) (signature : Nat)
  deriving DecidableEq

/-- Modelled from the spec: the fee of an operation (§4.2 step 2). -/
def Operation.fee : Operation → Nat
  | .transfer _ _ _ _ fee _ _ => fee
  | .changeKey _ _ fee _ _ _ => fee

/-- Modelled from the spec: `fee_total`, the sum over the block's
operations (§4.2 step 2). -/
def sumFees (ops : List Operation) : Nat :=
  (ops.map Operation.fee).sum

/-- Modelled from the spec: `NewPack` (§4.1): five fresh accounts with
dense numbers; the first receives `reward + fee_total`, the others start
at zero; all owned by the miner key and stamped with the creating block's
height. -/
def newPackAccounts (packIndex minerPublicKey funds h : Nat) : List Account :=
  (List.range AccountsPerBlock).map fun j =>
    { number := packIndex * AccountsPerBlock + j
      publicKey := minerPublicKey
      balance := if j = 0 then funds else 0
      updatedBlock := h
      nOperations := 0 }

/-- Modelled from the spec: §4.2 step 4, validation and application of a
single operation at block height `h` against the staged account array.
Returns the updated array together with the pack indices it dirtied.
For `Transfer`: signature against the source's current key, `op_id ==
n_operations + 1`, `source != destination`, `amount + fee ≤ balance`,
maturation, `destination < current account count`; debit source, credit
destination, bump `n_operations`, stamp both accounts' `updated_block`.
For `ChangeKey` (§9: validated identically): signature, op_id, fee,
maturation; deduct fee and replace the key. -/
def applyOp (h : Nat) (accounts : List Account) : Operation → Except ErrKind (List Account × List Nat)
  | .transfer source opId destination amount fee _payload signature =>
    match accounts[source]?, accounts[destination]? with
    | some src, some dst =>
      if signature ≠ src.publicKey then .error .invalidSignature
      else if opId ≠ src.nOperations + 1 then .error .invalidOperation
      else if source = destination then .error .invalidOperation
      else if ¬ amount + fee ≤ src.balance then .error .invalidOperation
      else if ¬ src.updatedBlock + MaturationHeight ≤ h then .error .invalidOperation
      else
        .ok (((accounts.set source
                { src with balance := src.balance - (amount + fee)
                           nOperations := src.nOperations + 1
                           updatedBlock := h }).set destination
                { dst with balance := dst.balance + amount
                           updatedBlock := h }),
             [source / AccountsPerBlock, destination / AccountsPerBlock])
    | _, _ => .error .invalidOperation
  | .changeKey source opId fee _payload newPublicKey signature =>
    match accounts[source]? with
    | some src =>
      if signature ≠ src.publicKey then .error .invalidSignature
      else if opId ≠ src.nOperations + 1 then .error .invalidOperation
      else if ¬ fee ≤ src.balance then .error .invalidOperation
      else if ¬ src.updatedBlock + MaturationHeight ≤ h then .error .invalidOperation
      else
        .ok (accounts.set source
              { src with balance := src.balance - fee
                         publicKey := newPublicKey
                         nOperations := src.nOperations + 1
                         updatedBlock := h },
             [source / AccountsPerBlock])
    | none => .error .invalidOperation

/-- Modelled from the spec: §4.2 step 4, "apply each op in listed order
against the pending state"; the first failing operation rejects the whole
list. -/
def applyOps (h : Nat) (accounts : List Account) : List Operation → Except ErrKind (List Account × List Nat)
  | [] => .ok (accounts, [])
  | op :: rest =>
    match applyOp h accounts op with
    | .error e => .error e
    | .ok (accounts1, packs1) =>
      match applyOps h accounts1 rest with
      | .error e => .error e
      | .ok (accounts2, packs2) => .ok (accounts2, packs1 ++ packs2)

/-- Modelled from the spec: the account array a staged block validates
against: the effective accounts extended by the new pack funded with
`reward + fee_total` (§4.2 steps 1–3). -/
def blockBaseAccounts (sb : Safebox) (minerPublicKey : Nat) (ops : List Operation) : List Account :=
  sb.effective.accounts ++
    newPackAccounts sb.effective.height minerPublicKey
      (getReward sb.effective.height + sumFees ops) sb.effective.height

/-- Modelled from the spec: `ProcessOperations` (§4.2) staging one block:
create the funded pack, apply the operations in order, prepend the
timestamp (truncated to the window), add the difficulty delta, and stage
the result in `pending`, marking the touched packs dirty.  If any
operation fails validation the entire block is rejected and the safebox
is left exactly as it was (§4.2: "`pending` is discarded and state is
unchanged"). -/
def ProcessOperations (sb : Safebox) (minerPublicKey timestamp : Nat)
    (ops : List Operation) (cdDelta : Int) : Except ErrKind Safebox :=
  let st := sb.effective
  match applyOps st.height (blockBaseAccounts sb minerPublicKey ops) ops with
  | .error e => .error e
  | .ok (accounts1, opPacks) =>
    .ok { committed := sb.committed
          pending := some
            { accounts := accounts1
              height := st.height + 1
              lastTimestamps := (timestamp :: st.lastTimestamps).take timestampsWindow
              cumulativeDifficulty := st.cumulativeDifficulty + cdDelta }
          dirty := (sb.dirty ∪ {st.height}) ∪ opPacks.toFinset }

/-- Modelled from the spec: the post-call state of an in-place
`ProcessOperations` call: the staged safebox on success, the untouched
safebox on error (§4.2 rejection discards the scratch fork). -/
def processOperationsRun (sb : Safebox) (minerPublicKey timestamp : Nat)
    (ops : List Operation) (cdDelta : Int) : Safebox × Option ErrKind :=
  match ProcessOperations sb minerPublicKey timestamp ops cdDelta with
  | .ok sb1 => (sb1, none)
  | .error e => (sb, some e)

/-- One block submission: miner key, block timestamp, operation list and
cumulative-difficulty delta — the arguments of `ProcessOperations`. -/
structure BlockInput where
  minerPublicKey : Nat
  timestamp : Nat
  ops : List Operation
  cdDelta : Int
  deriving DecidableEq

/-- Apply a list of block submissions in order, without any `Merge`;
`none` as soon as one is rejected. -/
def applyBlocks (sb : Safebox) : List BlockInput → Option Safebox
  | [] => some sb
  | b :: rest =>
    match ProcessOperations sb b.minerPublicKey b.timestamp b.ops b.cdDelta with
    | .ok sb1 => applyBlocks sb1 rest
    | .error _ => none

/-- An empty block submission mined by `minerKey` with timestamp 0, as in
the test-suite's maturation setup (src/safebox/safebox_test.go). -/
def emptyBlock (minerKey : Nat) : BlockInput :=
  { minerPublicKey := minerKey, timestamp := 0, ops := [], cdDelta := 0 }

/-- The account with number `i` after a chain of empty blocks mined by
`minerKey`: created by block `i / 5`, holding that block's reward iff it
is the first account of its pack. -/
def minedAccount (minerKey i : Nat) : Account :=
  { number := i
    publicKey := minerKey
    balance := if i % AccountsPerBlock = 0 then getReward (i / AccountsPerBlock) else 0
    updatedBlock := i / AccountsPerBlock
    nOperations := 0 }

/-- The safebox state reached from genesis by `n` empty blocks mined by
`minerKey` with timestamp 0. -/
def minedState (minerKey n : Nat) : SafeboxState :=
  { accounts := (List.range (AccountsPerBlock * n)).map (minedAccount minerKey)
    height := n
    lastTimestamps := List.replicate (min n timestampsWindow) 0
    cumulativeDifficulty := 0 }

/-- The safebox reached from genesis by `n` empty blocks mined by
`minerKey`, all still staged (no `Merge`). -/
def minedSafebox (minerKey n : Nat) : Safebox :=
  { committed := NewSafebox.committed
    pending := some (minedState minerKey n)
    dirty := Finset.range n }

/-- Three staged empty blocks over genesis, for concrete evaluation. -/
def chain3Safebox : Safebox :=
  (applyBlocks NewSafebox (List.replicate 3 (emptyBlock 1))).getD NewSafebox

/-- Two staged empty blocks with timestamps 5 and 7. -/
def twoBlocks : List BlockInput :=
  [{ minerPublicKey := 1, timestamp := 5, ops := [], cdDelta := 0 },
   { minerPublicKey := 1, timestamp := 7, ops := [], cdDelta := 0 }]

/-- The safebox reached by staging `twoBlocks` over genesis. -/
def twoBlocksSafebox : Safebox :=
  (applyBlocks NewSafebox twoBlocks).getD NewSafebox

/-- One hundred empty blocks with timestamps `0, 1, …, 99`, the §8
scenario S5 input. -/
def hundredBlocks : List BlockInput :=
  (List.range 100).map fun i =>
    { minerPublicKey := 1, timestamp := i, ops := [], cdDelta := 0 }

/-- The safebox reached by staging `hundredBlocks` over genesis. -/
def hundredSafebox : Safebox :=
  (applyBlocks NewSafebox hundredBlocks).getD NewSafebox

/-- Embedded from src/main.go: the three ways a CLI invocation can end,
as distinguished by `main` (lines 234–258). -/
inductive CliOutcome where
  | success
  | unknownCommand
  | runtimeError
  deriving DecidableEq

/-- Embedded from src/main.go `main`: the process exit code.  An unknown
command triggers the `CommandNotFound` handler, which calls `os.Exit(1)`;
a non-nil error returned from `app.Run` reaches `os.Exit(2)`; otherwise
`main` falls through to `os.Exit(0)`. -/
def mainExitCode : CliOutcome → Nat
  | .unknownCommand => 1
  | .runtimeError => 2
  | .success => 0

end PASL

namespace PASL

theorem take_append_take {α : Type} (X Y : List α) (n : Nat) :
    (X ++ Y.take n).take n = (X ++ Y).take n := by
  rw [List.take_append_eq_append_take, List.take_append_eq_append_take, List.take_take]
  congr 1
  congr 1
  omega

theorem applyOp_ok_facts {h : Nat} {accounts : List Account} {op : Operation}
    {accounts1 : List Account} {packs : List Nat}
    (hok : applyOp h accounts op = .ok (accounts1, packs)) :
    accounts1.length = accounts.length ∧
    ∀ p ∈ packs, ∃ a, a < accounts.length ∧ p = a / AccountsPerBlock := by
  cases op with
  | transfer source opId destination amount fee payload signature =>
    simp only [applyOp] at hok
    split at hok
    case h_2 => simp at hok
    case h_1 src dst hsrc hdst =>
      split at hok
      · simp at hok
      split at hok
      · simp at hok
      split at hok
      · simp at hok
      split at hok
      · simp at hok
      split at hok
      · simp at hok
      obtain ⟨hlts, -⟩ := List.getElem?_eq_some.mp hsrc
      obtain ⟨hltd, -⟩ := List.getElem?_eq_some.mp hdst
      simp only [Except.ok.injEq, Prod.mk.injEq] at hok
      obtain ⟨ha, hp⟩ := hok
      subst ha; subst hp
      refine ⟨by simp, ?_⟩
      intro p hp
      simp only [List.mem_cons, List.not_mem_nil, or_false] at hp
      rcases hp with hp | hp
      · exact ⟨source, hlts, hp⟩
      · exact ⟨destination, hltd, hp⟩
  | changeKey source opId fee payload newKey signature =>
    simp only [applyOp] at hok
    split at hok
    case h_2 => simp at hok
    case h_1 src hsrc =>
      split at hok
      · simp at hok
      split at hok
      · simp at hok
      split at hok
      · simp at hok
      split at hok
      · simp at hok
      obtain ⟨hlts, -⟩ := List.getElem?_eq_some.mp hsrc
      simp only [Except.ok.injEq, Prod.mk.injEq] at hok
      obtain ⟨ha, hp⟩ := hok
      subst ha; subst hp
      refine ⟨by simp, ?_⟩
      intro p hp
      simp only [List.mem_cons, List.not_mem_nil, or_false] at hp
      exact ⟨source, hlts, hp⟩

theorem applyOps_ok_facts {h : Nat} {ops : List Operation} :
    ∀ {accounts accounts1 : List Account} {packs : List Nat},
    applyOps h accounts ops = .ok (accounts1, packs) →
    accounts1.length = accounts.length ∧
    ∀ p ∈ packs, ∃ a, a < accounts.length ∧ p = a / AccountsPerBlock := by
  induction ops with
  | nil =>
    intro accounts accounts1 packs hok
    simp only [applyOps, Except.ok.injEq, Prod.mk.injEq] at hok
    obtain ⟨ha, hp⟩ := hok
    subst ha; subst hp
    simp
  | cons op rest ih =>
    intro accounts accounts1 packs hok
    simp only [applyOps] at hok
    split at hok
    case h_1 => simp at hok
    case h_2 acc1 packs1 heq1 =>
      split at hok
      case h_1 => simp at hok
      case h_2 acc2 packs2 heq2 =>
        simp only [Except.ok.injEq, Prod.mk.injEq] at hok
        obtain ⟨ha, hp⟩ := hok
        subst ha; subst hp
        obtain ⟨hl1, hb1⟩ := applyOp_ok_facts heq1
        obtain ⟨hl2, hb2⟩ := ih heq2
        refine ⟨by omega, ?_⟩
        intro p hp
        rcases List.mem_append.mp hp with hp | hp
        · exact hb1 p hp
        · obtain ⟨a, ha, hpa⟩ := hb2 p hp
          exact ⟨a, by omega, hpa⟩

theorem processOperations_ok_facts {sb : Safebox} {minerKey ts : Nat}
    {ops : List Operation} {cd : Int} {sb1 : Safebox}
    (hok : ProcessOperations sb minerKey ts ops cd = .ok sb1) :
    sb1.committed = sb.committed ∧
    sb1.effective.height = sb.effective.height + 1 ∧
    sb1.effective.accounts.length = sb.effective.accounts.length + AccountsPerBlock ∧
    sb1.effective.lastTimestamps = (ts :: sb.effective.lastTimestamps).take timestampsWindow ∧
    sb.dirty ∪ {sb.effective.height} ⊆ sb1.dirty ∧
    ∀ p ∈ sb1.dirty, p ∈ sb.dirty ∨ p = sb.effective.height ∨
      ∃ a, a < sb.effective.accounts.length + AccountsPerBlock ∧ p = a / AccountsPerBlock := by
  simp only [ProcessOperations] at hok
  split at hok
  case h_1 => simp at hok
  case h_2 acc1 packs heq =>
    obtain ⟨hlen, hpacks⟩ := applyOps_ok_facts heq
    have hbase : (blockBaseAccounts sb minerKey ops).length =
        sb.effective.accounts.length + AccountsPerBlock := by
      simp [blockBaseAccounts, newPackAccounts, AccountsPerBlock]
    simp only [Except.ok.injEq] at hok
    subst hok
    refine ⟨rfl, rfl, ?_, rfl, ?_, ?_⟩
    · simpa [Safebox.effective, hbase] using hlen
    · exact Finset.subset_union_left
    · intro p hp
      rcases Finset.mem_union.mp hp with hp1 | hp1
      · rcases Finset.mem_union.mp hp1 with hp2 | hp2
        · exact Or.inl hp2
        · exact Or.inr (Or.inl (Finset.mem_singleton.mp hp2))
      · obtain ⟨a, ha, hpa⟩ := hpacks p (List.mem_toFinset.mp hp1)
        exact Or.inr (Or.inr ⟨a, by omega, hpa⟩)

theorem applyBlocks_facts : ∀ (bs : List BlockInput) (sb sb1 : Safebox),
    applyBlocks sb bs = some sb1 →
    sb.effective.accounts.length = AccountsPerBlock * sb.effective.height →
    sb.dirty = Finset.range sb.effective.height →
    sb.effective.lastTimestamps.length ≤ timestampsWindow →
    sb1.committed = sb.committed ∧
    sb1.effective.height = sb.effective.height + bs.length ∧
    sb1.effective.accounts.length = AccountsPerBlock * sb1.effective.height ∧
    sb1.dirty = Finset.range sb1.effective.height ∧
    sb1.effective.lastTimestamps =
      ((bs.map BlockInput.timestamp).reverse ++ sb.effective.lastTimestamps).take timestampsWindow := by
  intro bs
  induction bs with
  | nil =>
    intro sb sb1 hok hlen hd hts
    simp only [applyBlocks, Option.some.injEq] at hok
    subst hok
    refine ⟨rfl, by simp, hlen, hd, ?_⟩
    simp [List.take_of_length_le hts]
  | cons b rest ih =>
    intro sb sb1 hok hlen hd hts
    simp only [applyBlocks] at hok
    split at hok
    case h_2 => simp at hok
    case h_1 sbm heq =>
      obtain ⟨hcom, hh, hl, hlt, hsub, hbound⟩ := processOperations_ok_facts heq
      have hlen1 : sbm.effective.accounts.length = AccountsPerBlock * sbm.effective.height := by
        rw [hl, hh, hlen]; ring
      have hd1 : sbm.dirty = Finset.range sbm.effective.height := by
        apply Finset.Subset.antisymm
        · intro p hp
          rw [hh]
          rcases hbound p hp with hp1 | hp1 | ⟨a, ha, hpa⟩
          · rw [hd] at hp1
            exact Finset.mem_range.mpr (by have := Finset.mem_range.mp hp1; omega)
          · exact Finset.mem_range.mpr (by omega)
          · refine Finset.mem_range.mpr ?_
            subst hpa
            rw [hlen] at ha
            have h5 : (0:Nat) < AccountsPerBlock := by norm_num [AccountsPerBlock]
            refine (Nat.div_lt_iff_lt_mul h5).mpr ?_
            simp only [AccountsPerBlock] at ha ⊢
            omega
        · rw [hh]
          intro p hp
          have hp' := Finset.mem_range.mp hp
          apply hsub
          rcases Nat.lt_succ_iff_lt_or_eq.mp hp' with h1 | h1
          · exact Finset.mem_union_left _ (by rw [hd]; exact Finset.mem_range.mpr h1)
          · exact Finset.mem_union_right _ (by simp [h1])
      have hts1 : sbm.effective.lastTimestamps.length ≤ timestampsWindow := by
        rw [hlt]
        simp [List.length_take]
      obtain ⟨hcom2, hh2, hl2, hd2, hlt2⟩ := ih sbm sb1 hok hlen1 hd1 hts1
      refine ⟨by rw [hcom2, hcom], ?_, hl2, hd2, ?_⟩
      · rw [hh2, hh]
        simp only [List.length_cons]
        omega
      · rw [hlt2, hlt]
        have hrev : ((b :: rest).map BlockInput.timestamp).reverse =
            (rest.map BlockInput.timestamp).reverse ++ [b.timestamp] := by simp
        rw [hrev, List.append_assoc]
        exact take_append_take _ _ _

theorem applyBlocks_fresh_facts {bs : List BlockInput} {sb1 : Safebox}
    (hok : applyBlocks NewSafebox bs = some sb1) :
    GetHeight sb1 = bs.length ∧
    sb1.effective.accounts.length = AccountsPerBlock * bs.length ∧
    GetUpdatedPacks sb1 = Finset.range bs.length ∧
    sb1.effective.lastTimestamps = ((bs.map BlockInput.timestamp).reverse).take timestampsWindow := by
  have hlen : NewSafebox.effective.accounts.length =
      AccountsPerBlock * NewSafebox.effective.height := by
    simp [NewSafebox, Safebox.effective]
  have hd : NewSafebox.dirty = Finset.range NewSafebox.effective.height := by
    simp [NewSafebox, Safebox.effective]
  have hts : NewSafebox.effective.lastTimestamps.length ≤ timestampsWindow := by
    simp [NewSafebox, Safebox.effective]
  obtain ⟨-, hh, hl, hdd, hlt⟩ := applyBlocks_facts bs NewSafebox sb1 hok hlen hd hts
  have hz : NewSafebox.effective.height = 0 := rfl
  have hnil : NewSafebox.effective.lastTimestamps = [] := rfl
  rw [hz] at hh
  rw [hnil, List.append_nil] at hlt
  exact ⟨by simpa [GetHeight] using hh, by rw [hl, hh, Nat.zero_add],
    by simpa [GetUpdatedPacks, hh] using hdd, hlt⟩

/-- C2: the block reward function satisfies `getReward 0 = 500000`,
`getReward 420479 = 500000`, `getReward 420480 = 250000` and
`getReward 1000000000 = 10000`; in general the reward is the initial
`500000` halved once every `420480` blocks, floored at `10000`, so it
never goes below `10000`. -/
theorem getReward_schedule :
    getReward 0 = 500000 ∧ getReward 420479 = 500000 ∧
    getReward 420480 = 250000 ∧ getReward 1000000000 = 10000 ∧
    (∀ h : Nat, getReward h = max (500000 / 2 ^ (h / 420480)) 10000) ∧
    (∀ h : Nat, 10000 ≤ getReward h) := by
  refine ⟨by norm_num [getReward], by norm_num [getReward], by norm_num [getReward],
    by norm_num [getReward], ?_, ?_⟩
  · intro h
    unfold getReward
    split <;> omega
  · intro h
    unfold getReward
    split <;> omega

/-- C1: whenever `ProcessOperations` returns an error the safebox is left
exactly as it was before the call — in particular `GetHeight` and
`GetFingerprint` are unchanged and no operation of the submitted block is
applied (the scratch pending layer is discarded). -/
theorem processOperations_error_state_unchanged
    (sb : Safebox) (minerKey ts : Nat) (ops : List Operation) (cd : Int) (e : ErrKind)
    (herr : ProcessOperations sb minerKey ts ops cd = .error e) :
    (processOperationsRun sb minerKey ts ops cd).1 = sb ∧
    GetHeight (processOperationsRun sb minerKey ts ops cd).1 = GetHeight sb ∧
    GetFingerprint (processOperationsRun sb minerKey ts ops cd).1 = GetFingerprint sb := by
  simp [processOperationsRun, herr]

/-- Witness for C1: a concrete rejected block (a transfer from an unknown
account on the genesis safebox) on which the hypothesis holds and the
state is unchanged. -/
theorem processOperations_error_state_unchanged_witness :
    ProcessOperations NewSafebox 1 0 [Operation.transfer 7 1 2 3 4 [] 1] 0 =
      .error .invalidOperation ∧
    (processOperationsRun NewSafebox 1 0 [Operation.transfer 7 1 2 3 4 [] 1] 0).1 = NewSafebox :=
  ⟨by rfl,
   (processOperations_error_state_unchanged NewSafebox 1 0
     [Operation.transfer 7 1 2 3 4 [] 1] 0 .invalidOperation (by rfl)).1⟩

/-- C5: `Merge` followed by `Rollback` leaves the safebox exactly in the
state committed by the `Merge` (not the pre-merge state): `Rollback`
discards only uncommitted data, so the height after merge-then-rollback
equals the height at merge time. -/
theorem rollback_after_merge (sb : Safebox) :
    Rollback (Merge sb) = Merge sb ∧
    GetHeight (Rollback (Merge sb)) = GetHeight (Merge sb) ∧
    GetHeight (Rollback (Merge sb)) = GetHeight sb :=
  ⟨rfl, rfl, rfl⟩

/-- C6: after `N` valid blocks applied to a fresh safebox without
`Merge`, `GetUpdatedPacks` is exactly the pack-index set `{0..N-1}`;
after `Merge` it is empty. -/
theorem dirty_pack_tracking (bs : List BlockInput) (sb1 : Safebox)
    (hok : applyBlocks NewSafebox bs = some sb1) :
    GetUpdatedPacks sb1 = Finset.range bs.length ∧
    GetUpdatedPacks (Merge sb1) = ∅ :=
  ⟨(applyBlocks_fresh_facts hok).2.2.1, rfl⟩

/-- Witness for C6: three staged empty blocks dirty exactly packs
`{0, 1, 2}`, and `Merge` clears the set. -/
theorem dirty_pack_tracking_witness :
    GetUpdatedPacks chain3Safebox = Finset.range 3 ∧
    GetUpdatedPacks (Merge chain3Safebox) = ∅ :=
  dirty_pack_tracking (List.replicate 3 (emptyBlock 1)) chain3Safebox (by rfl)

/-- C10: staged (pending, unmerged) blocks are visible through the read
accessors: after `N` successful `ProcessOperations` calls on a fresh
safebox and before any `Merge`, `GetHeight` is `N`, `GetUpdatedPacks` is
`{0..N-1}`, and `GetLastTimestamps` returns the staged blocks'
timestamps, most recent first. -/
theorem staged_blocks_visible (bs : List BlockInput) (sb1 : Safebox)
    (hok : applyBlocks NewSafebox bs = some sb1) :
    GetHeight sb1 = bs.length ∧
    GetUpdatedPacks sb1 = Finset.range bs.length ∧
    ∀ n : Nat, GetLastTimestamps sb1 n =
      (((bs.map BlockInput.timestamp).reverse).take timestampsWindow).take n := by
  obtain ⟨h1, -, h3, h4⟩ := applyBlocks_fresh_facts hok
  exact ⟨h1, h3, fun n => by simp [GetLastTimestamps, h4]⟩

/-- Witness for C10: two staged blocks with timestamps 5 and 7 are
visible: height 2, dirty packs `{0, 1}`, timestamps `[7, 5]`. -/
theorem staged_blocks_visible_witness :
    GetHeight twoBlocksSafebox = 2 ∧
    GetUpdatedPacks twoBlocksSafebox = Finset.range 2 ∧
    GetLastTimestamps twoBlocksSafebox 2 =
      (((twoBlocks.map BlockInput.timestamp).reverse).take timestampsWindow).take 2 := by
  have h := staged_blocks_visible twoBlocks twoBlocksSafebox (by rfl)
  exact ⟨h.1, h.2.1, h.2.2 2⟩

/-- C7: after 100 blocks with timestamps `t0, …, t99` applied in order
to a fresh safebox, `GetLastTimestamps 10` returns `[t99, …, t90]` (most
recent first) and `GetLastTimestamps n` for any `n` of at least the
recorded count returns the full recorded list, most recent first. -/
theorem last_timestamps_window (bs : List BlockInput) (sb1 : Safebox)
    (hlen : bs.length = 100) (hok : applyBlocks NewSafebox bs = some sb1) :
    GetLastTimestamps sb1 10 = ((bs.map BlockInput.timestamp).reverse).take 10 ∧
    ∀ n : Nat, 100 ≤ n →
      GetLastTimestamps sb1 n = (bs.map BlockInput.timestamp).reverse := by
  obtain ⟨-, -, -, h4⟩ := applyBlocks_fresh_facts hok
  have hrl : ((bs.map BlockInput.timestamp).reverse).length = 100 := by simp [hlen]
  have hfull : ((bs.map BlockInput.timestamp).reverse).take timestampsWindow =
      (bs.map BlockInput.timestamp).reverse :=
    List.take_of_length_le (by rw [hrl]; norm_num [timestampsWindow])
  constructor
  · simp only [GetLastTimestamps, h4, hfull]
  · intro n hn
    simp only [GetLastTimestamps, h4, hfull]
    exact List.take_of_length_le (by rw [hrl]; omega)

/-- Witness for C7: one hundred blocks with timestamps `0..99`:
`GetLastTimestamps 10 = [99, …, 90]` and `GetLastTimestamps 10000`
returns all hundred timestamps, most recent first. -/
theorem last_timestamps_window_witness :
    GetLastTimestamps hundredSafebox 10 =
      ((hundredBlocks.map BlockInput.timestamp).reverse).take 10 ∧
    GetLastTimestamps hundredSafebox 10000 =
      (hundredBlocks.map BlockInput.timestamp).reverse := by
  have h := last_timestamps_window hundredBlocks hundredSafebox (by rfl) (by rfl)
  exact ⟨h.1, h.2 10000 (by norm_num)⟩

theorem applyOp_self_transfer (h : Nat) (accounts : List Account)
    (source opId amount fee : Nat) (payload : List Nat) (signature : Nat) :
    ∃ e, applyOp h accounts (.transfer source opId source amount fee payload signature) =
      .error e := by
  cases hs : accounts[source]? with
  | none => exact ⟨.invalidOperation, by simp [applyOp, hs]⟩
  | some src =>
    by_cases h1 : signature = src.publicKey
    · by_cases h2 : opId = src.nOperations + 1
      · exact ⟨.invalidOperation, by simp [applyOp, hs, h1, h2]⟩
      · exact ⟨.invalidOperation, by simp [applyOp, hs, h1, h2]⟩
    · exact ⟨.invalidSignature, by simp [applyOp, hs, h1]⟩

theorem applyOps_error_of_self_transfer {source opId amount fee : Nat}
    {payload : List Nat} {signature : Nat} (h : Nat) :
    ∀ (ops : List Operation) (accounts : List Account),
    Operation.transfer source opId source amount fee payload signature ∈ ops →
    ∃ e, applyOps h accounts ops = .error e := by
  intro ops
  induction ops with
  | nil => intro accounts hmem; cases hmem
  | cons op rest ih =>
    intro accounts hmem
    rcases List.mem_cons.mp hmem with heq | hmem2
    · subst heq
      obtain ⟨e, he⟩ := applyOp_self_transfer h accounts source opId amount fee payload signature
      exact ⟨e, by simp only [applyOps, he]⟩
    · cases hop : applyOp h accounts op with
      | error e => exact ⟨e, by simp only [applyOps, hop]⟩
      | ok p =>
        obtain ⟨e, he⟩ := ih p.1 hmem2
        exact ⟨e, by simp only [applyOps, hop, he]⟩

/-- C8: a `Transfer` whose destination equals its source is rejected:
every block containing such an operation is refused by
`ProcessOperations` and the safebox is unchanged. -/
theorem self_transfer_rejected (sb : Safebox) (minerKey ts : Nat)
    (ops : List Operation) (cd : Int)
    (source opId amount fee : Nat) (payload : List Nat) (signature : Nat)
    (hmem : Operation.transfer source opId source amount fee payload signature ∈ ops) :
    (∃ e, ProcessOperations sb minerKey ts ops cd = .error e) ∧
    (processOperationsRun sb minerKey ts ops cd).1 = sb := by
  obtain ⟨e, he⟩ := applyOps_error_of_self_transfer sb.effective.height ops
    (blockBaseAccounts sb minerKey ops) hmem
  refine ⟨⟨e, ?_⟩, ?_⟩
  · simp only [ProcessOperations, he]
  · simp only [processOperationsRun, ProcessOperations, he]

/-- Witness for C8: a concrete self-transfer block on genesis is
rejected and leaves the safebox untouched. -/
theorem self_transfer_rejected_witness :
    (∃ e, ProcessOperations NewSafebox 1 0 [Operation.transfer 0 1 0 3 4 [] 1] 0 =
      .error e) ∧
    (processOperationsRun NewSafebox 1 0 [Operation.transfer 0 1 0 3 4 [] 1] 0).1 =
      NewSafebox :=
  self_transfer_rejected NewSafebox 1 0 [Operation.transfer 0 1 0 3 4 [] 1] 0
    0 1 3 4 [] 1 (by simp)

theorem processOperations_ok_applyOps {sb : Safebox} {minerKey ts : Nat}
    {ops : List Operation} {cd : Int} {sb1 : Safebox}
    (hok : ProcessOperations sb minerKey ts ops cd = .ok sb1) :
    ∃ r, applyOps sb.effective.height (blockBaseAccounts sb minerKey ops) ops = .ok r := by
  simp only [ProcessOperations] at hok
  split at hok
  case h_1 => simp at hok
  case h_2 acc1 packs heq => exact ⟨(acc1, packs), heq⟩

theorem applyOps_singleton_ok {h : Nat} {accounts : List Account} {op : Operation}
    {r : List Account × List Nat} (hok : applyOps h accounts [op] = .ok r) :
    ∃ r1, applyOp h accounts op = .ok r1 := by
  simp only [applyOps] at hok
  split at hok
  case h_1 => simp at hok
  case h_2 acc1 packs1 heq => exact ⟨(acc1, packs1), heq⟩

theorem applyOp_transfer_ok_dest {h : Nat} {accounts : List Account}
    {source opId destination amount fee : Nat} {payload : List Nat} {sig : Nat}
    {r : List Account × List Nat}
    (hok : applyOp h accounts (.transfer source opId destination amount fee payload sig) =
      .ok r) :
    ∃ dst, accounts[destination]? = some dst := by
  simp only [applyOp] at hok
  split at hok
  case h_1 src dst hsrc hdst => exact ⟨dst, hdst⟩
  case h_2 => simp at hok

/-- C4: a transfer that is otherwise valid (the same transfer signed by
the source account's current key is accepted) but whose signature was
produced with a different key is rejected with `InvalidSignature`, and
the safebox is unchanged. -/
theorem wrong_signer_rejected (sb : Safebox) (minerKey ts : Nat) (cd : Int)
    (source opId destination amount fee : Nat) (payload : List Nat)
    (badKey : Nat) (src : Account)
    (hsrc : (blockBaseAccounts sb minerKey
      [Operation.transfer source opId destination amount fee payload badKey])[source]? =
      some src)
    (hbad : badKey ≠ src.publicKey)
    (hgood : ∃ sb1, ProcessOperations sb minerKey ts
      [Operation.transfer source opId destination amount fee payload src.publicKey] cd =
      .ok sb1) :
    ProcessOperations sb minerKey ts
      [Operation.transfer source opId destination amount fee payload badKey] cd =
      .error .invalidSignature ∧
    (processOperationsRun sb minerKey ts
      [Operation.transfer source opId destination amount fee payload badKey] cd).1 = sb := by
  have hbase : blockBaseAccounts sb minerKey
      [Operation.transfer source opId destination amount fee payload src.publicKey] =
      blockBaseAccounts sb minerKey
      [Operation.transfer source opId destination amount fee payload badKey] := by
    simp [blockBaseAccounts, sumFees, Operation.fee]
  obtain ⟨sb1, hok⟩ := hgood
  obtain ⟨r, hops⟩ := processOperations_ok_applyOps hok
  rw [hbase] at hops
  obtain ⟨r1, hop⟩ := applyOps_singleton_ok hops
  obtain ⟨dst, hdst⟩ := applyOp_transfer_ok_dest hop
  have hopbad : applyOp sb.effective.height
      (blockBaseAccounts sb minerKey
        [Operation.transfer source opId destination amount fee payload badKey])
      (.transfer source opId destination amount fee payload badKey) =
      .error .invalidSignature := by
    simp only [applyOp, hsrc, hdst]
    simp [hbad]
  refine ⟨?_, ?_⟩
  · simp only [ProcessOperations, applyOps, hopbad]
  · simp only [processOperationsRun, ProcessOperations, applyOps, hopbad]

set_option maxRecDepth 100000 in
/-- Witness for C4: on the safebox holding 100 staged empty blocks mined
by key 1, the matured transfer from account 0 signed by the owner key 1
is accepted, while the same transfer signed by key 2 is rejected with
`InvalidSignature` and changes nothing. -/
theorem wrong_signer_rejected_witness :
    ProcessOperations (minedSafebox 1 MaturationHeight) 1 0
      [Operation.transfer 0 1 2 3 4 [] 2] 0 = .error .invalidSignature ∧
    (processOperationsRun (minedSafebox 1 MaturationHeight) 1 0
      [Operation.transfer 0 1 2 3 4 [] 2] 0).1 = minedSafebox 1 MaturationHeight :=
  wrong_signer_rejected (minedSafebox 1 MaturationHeight) 1 0 0 0 1 2 3 4 [] 2
    (minedAccount 1 0) (by rfl) (by decide) ⟨_, by rfl⟩

theorem minedAccounts_append (K n : Nat) :
    (List.range (AccountsPerBlock * n)).map (minedAccount K) ++
      newPackAccounts n K (getReward n) n =
    (List.range (AccountsPerBlock * (n + 1))).map (minedAccount K) := by
  have h1 : AccountsPerBlock * (n + 1) = AccountsPerBlock * n + AccountsPerBlock := by ring
  rw [h1, List.range_add, List.map_append, List.map_map]
  congr 1
  unfold newPackAccounts
  apply List.map_congr_left
  intro j hj
  have hj5 : j < AccountsPerBlock := List.mem_range.mp hj
  have hmod : (AccountsPerBlock * n + j) % AccountsPerBlock = j := by
    simp only [AccountsPerBlock] at hj5 ⊢
    omega
  have hdiv : (AccountsPerBlock * n + j) / AccountsPerBlock = n := by
    simp only [AccountsPerBlock] at hj5 ⊢
    omega
  simp only [Function.comp_apply, minedAccount, hmod, hdiv, Account.mk.injEq,
    and_true, true_and]
  ring

theorem mined_timestamps (n : Nat) :
    (0 :: List.replicate (min n timestampsWindow) 0).take timestampsWindow =
      List.replicate (min (n + 1) timestampsWindow) 0 := by
  rw [← List.replicate_succ, List.take_replicate]
  congr 1
  simp only [timestampsWindow]
  omega

theorem mined_dirty (n : Nat) :
    (Finset.range n ∪ {n}) ∪ (∅ : Finset Nat) = Finset.range (n + 1) := by
  rw [Finset.union_empty, Finset.range_succ, Finset.insert_eq, Finset.union_comm]

theorem processOperations_mined_step (K n : Nat) (sb : Safebox)
    (hcom : sb.committed = NewSafebox.committed)
    (heff : sb.effective = minedState K n)
    (hd : sb.dirty = Finset.range n) :
    ProcessOperations sb K 0 [] 0 = .ok (minedSafebox K (n + 1)) := by
  simp only [ProcessOperations, applyOps, blockBaseAccounts, heff, hcom, hd, sumFees,
    List.map_nil, List.sum_nil, Nat.add_zero, List.toFinset_nil]
  simp only [minedState, minedSafebox, Except.ok.injEq, Safebox.mk.injEq, Option.some.injEq,
    SafeboxState.mk.injEq, add_zero, and_true, true_and]
  exact ⟨⟨minedAccounts_append K n, mined_timestamps n⟩, mined_dirty n⟩

theorem applyBlocks_mined (K : Nat) : ∀ (m n : Nat) (sb : Safebox),
    sb.committed = NewSafebox.committed →
    sb.effective = minedState K n →
    sb.dirty = Finset.range n →
    applyBlocks sb (List.replicate (m + 1) (emptyBlock K)) =
      some (minedSafebox K (n + m + 1)) := by
  intro m
  induction m with
  | zero =>
    intro n sb hcom heff hd
    simp only [List.replicate_succ, List.replicate_zero, applyBlocks, emptyBlock,
      processOperations_mined_step K n sb hcom heff hd]
  | succ m ih =>
    intro n sb hcom heff hd
    rw [List.replicate_succ]
    simp only [applyBlocks, emptyBlock, processOperations_mined_step K n sb hcom heff hd]
    have hrec := ih (n + 1) (minedSafebox K (n + 1)) rfl rfl rfl
    have harith : n + 1 + m + 1 = n + (m + 1) + 1 := by omega
    rw [harith] at hrec
    exact hrec

theorem applyBlocks_mined_fresh (K : Nat) :
    applyBlocks NewSafebox (List.replicate MaturationHeight (emptyBlock K)) =
      some (minedSafebox K MaturationHeight) := by
  have h0 : NewSafebox.effective = minedState K 0 := by
    simp [NewSafebox, Safebox.effective, minedState]
  have hchain := applyBlocks_mined K 99 0 NewSafebox rfl h0 (by simp [NewSafebox])
  norm_num at hchain
  norm_num [MaturationHeight]
  exact hchain

theorem minedBase_get (K n fund i : Nat) (hi : i < AccountsPerBlock * n) :
    ((List.range (AccountsPerBlock * n)).map (minedAccount K) ++
      newPackAccounts n K fund n)[i]? = some (minedAccount K i) := by
  rw [List.getElem?_append_left (by simpa using hi), List.getElem?_map,
    List.getElem?_range hi]
  rfl

theorem applyOp_immature (K fund : Nat) :
    applyOp MaturationHeight
      ((List.range (AccountsPerBlock * MaturationHeight)).map (minedAccount K) ++
        newPackAccounts MaturationHeight K fund MaturationHeight)
      (.transfer AccountsPerBlock 1 2 3 4 [] K) = .error .invalidOperation := by
  have h5 := minedBase_get K MaturationHeight fund AccountsPerBlock
    (by norm_num [AccountsPerBlock, MaturationHeight])
  have h2 := minedBase_get K MaturationHeight fund 2
    (by norm_num [AccountsPerBlock, MaturationHeight])
  simp only [applyOp, h5, h2]
  norm_num [minedAccount, AccountsPerBlock, MaturationHeight, getReward]

theorem processOperations_immature (K : Nat) :
    ProcessOperations (minedSafebox K MaturationHeight) K 0
      [Operation.transfer AccountsPerBlock 1 2 3 4 [] K] 0 = .error .invalidOperation := by
  have hop := applyOp_immature K (getReward MaturationHeight +
    sumFees [Operation.transfer AccountsPerBlock 1 2 3 4 [] K])
  simp only [ProcessOperations, applyOps, blockBaseAccounts, minedSafebox, minedState,
    Safebox.effective, Option.getD_some, hop]

theorem applyOp_mature (K fund : Nat) :
    applyOp MaturationHeight
      ((List.range (AccountsPerBlock * MaturationHeight)).map (minedAccount K) ++
        newPackAccounts MaturationHeight K fund MaturationHeight)
      (.transfer 0 1 2 3 4 [] K) =
    .ok ((((List.range (AccountsPerBlock * MaturationHeight)).map (minedAccount K) ++
        newPackAccounts MaturationHeight K fund MaturationHeight).set 0
          { number := 0, publicKey := K, balance := 499993,
            updatedBlock := MaturationHeight, nOperations := 1 }).set 2
          { number := 2, publicKey := K, balance := 3,
            updatedBlock := MaturationHeight, nOperations := 0 },
        [0, 0]) := by
  have h0 := minedBase_get K MaturationHeight fund 0
    (by norm_num [AccountsPerBlock, MaturationHeight])
  have h2 := minedBase_get K MaturationHeight fund 2
    (by norm_num [AccountsPerBlock, MaturationHeight])
  simp only [applyOp, h0, h2]
  norm_num [minedAccount, AccountsPerBlock, getReward]

theorem set_set_getElem_zero {α : Type} (l : List α) (A B : α) (h : 2 < l.length) :
    ((l.set 0 A).set 2 B)[0]? = some A := by
  rw [List.getElem?_set_ne (by decide), List.getElem?_set_self (by omega)]

theorem set_set_getElem_two {α : Type} (l : List α) (A B : α) (h : 2 < l.length) :
    ((l.set 0 A).set 2 B)[2]? = some B := by
  rw [List.getElem?_set_self (by simpa using h)]

/-- C3: with any miner key `K`, applying `MaturationHeight = 100` empty
blocks to a fresh safebox reaches the staged chain state; there, the
correctly signed `Transfer {source := 5, op_id := 1, destination := 2,
amount := 3, fee := 4}` is rejected (account 5 was mined at height 1, so
its funds are immature) with `GetHeight` unchanged at 100, while the
identical transfer from account 0 (mined at height 0, matured) is
accepted: account 0 held 500000 and ends with 500000 - (3 + 4), account 2
ends with 3. -/
theorem maturation_lock (K : Nat) :
    applyBlocks NewSafebox (List.replicate MaturationHeight (emptyBlock K)) =
      some (minedSafebox K MaturationHeight) ∧
    ProcessOperations (minedSafebox K MaturationHeight) K 0
      [Operation.transfer AccountsPerBlock 1 2 3 4 [] K] 0 = .error .invalidOperation ∧
    GetHeight (processOperationsRun (minedSafebox K MaturationHeight) K 0
      [Operation.transfer AccountsPerBlock 1 2 3 4 [] K] 0).1 = MaturationHeight ∧
    (GetAccount (minedSafebox K MaturationHeight) 0).map Account.balance = some 500000 ∧
    ∃ sb1, ProcessOperations (minedSafebox K MaturationHeight) K 0
        [Operation.transfer 0 1 2 3 4 [] K] 0 = .ok sb1 ∧
      (GetAccount sb1 0).map Account.balance = some (500000 - (3 + 4)) ∧
      (GetAccount sb1 2).map Account.balance = some 3 := by
  refine ⟨applyBlocks_mined_fresh K, processOperations_immature K, ?_, ?_, ?_⟩
  · simp only [processOperationsRun, processOperations_immature K]
    rfl
  · simp only [GetAccount, minedSafebox, minedState, Safebox.effective, Option.getD_some,
      List.getElem?_map,
      List.getElem?_range (show 0 < AccountsPerBlock * MaturationHeight by
        norm_num [AccountsPerBlock, MaturationHeight])]
    norm_num [minedAccount, getReward]
  · have hop := applyOp_mature K (getReward MaturationHeight +
      sumFees [Operation.transfer 0 1 2 3 4 [] K])
    have hblen : (((List.range (AccountsPerBlock * MaturationHeight)).map (minedAccount K) ++
        newPackAccounts MaturationHeight K (getReward MaturationHeight +
          sumFees [Operation.transfer 0 1 2 3 4 [] K]) MaturationHeight)).length =
        AccountsPerBlock * MaturationHeight + AccountsPerBlock := by
      simp [newPackAccounts]
    have hPO : ProcessOperations (minedSafebox K MaturationHeight) K 0
        [Operation.transfer 0 1 2 3 4 [] K] 0 =
        .ok { committed := NewSafebox.committed
              pending := some
                { accounts := (((List.range (AccountsPerBlock * MaturationHeight)).map
                      (minedAccount K) ++
                      newPackAccounts MaturationHeight K (getReward MaturationHeight +
                        sumFees [Operation.transfer 0 1 2 3 4 [] K]) MaturationHeight).set 0
                        { number := 0, publicKey := K, balance := 499993,
                          updatedBlock := MaturationHeight, nOperations := 1 }).set 2
                        { number := 2, publicKey := K, balance := 3,
                          updatedBlock := MaturationHeight, nOperations := 0 }
                  height := MaturationHeight + 1
                  lastTimestamps := (0 :: List.replicate (min MaturationHeight timestampsWindow)
                    0).take timestampsWindow
                  cumulativeDifficulty := 0 + 0 }
              dirty := (Finset.range MaturationHeight ∪ {MaturationHeight}) ∪
                ([0, 0] : List Nat).toFinset } := by
      simp only [ProcessOperations, applyOps, blockBaseAccounts, minedSafebox, minedState,
        Safebox.effective, Option.getD_some, hop, List.append_nil]
    refine ⟨_, hPO, ?_, ?_⟩
    · simp only [GetAccount, Safebox.effective, Option.getD_some,
        set_set_getElem_zero _ _ _ (by rw [hblen]; norm_num [AccountsPerBlock, MaturationHeight])]
      norm_num
    · simp only [GetAccount, Safebox.effective, Option.getD_some,
        set_set_getElem_two _ _ _ (by rw [hblen]; norm_num [AccountsPerBlock, MaturationHeight])]
      norm_num

/-- C9: the CLI exit codes embedded from src/main.go: 0 on success, 1 on
an unknown command, 2 on a runtime error returned from running the
application. -/
theorem mainExitCode_spec :
    mainExitCode .success = 0 ∧ mainExitCode .unknownCommand = 1 ∧
    mainExitCode .runtimeError = 2 :=
  ⟨rfl, rfl, rfl⟩

end PASL
